import Mathlib

/-!
Verification of the Ukkonen-algorithm compression codec
(`tools.py`, `ukkonen_algo.py`, `runlength_binary_bwt.py`).

The Python source is shallowly embedded: mutable objects become explicit
state records, Python lists become `List` with Python indexing semantics
(negative indices wrap once, out-of-range raises, modelled by `Option`),
`bitarray` values become `List Bool`, and unbounded `while` loops take an
explicit fuel argument so that every definition is executable.  `none`
models a Python exception (or, for fuel-carrying functions, fuel
exhaustion); the decoder uses a three-valued result so that genuine
divergence can be distinguished from an exception.
-/

/-! ## Python list and string indexing semantics -/

/-- Resolve a Python index into a list of length `len`: a negative index
wraps once from the end, anything still out of range raises `IndexError`. -/
def py_idx (len : Nat) (i : Int) : Option Nat :=
  if 0 ≤ i then (if i < (len : Int) then some i.toNat else none)
  else (if 0 ≤ (len : Int) + i then some ((len : Int) + i).toNat else none)

/-- Python `l[i]` on a list. -/
def py_get {α : Type} (l : List α) (i : Int) : Option α :=
  (py_idx l.length i).bind l.get?

/-- Python `l[i] = v` on a list. -/
def py_set {α : Type} (l : List α) (i : Int) (v : α) : Option (List α) :=
  (py_idx l.length i).map (fun j => l.set j v)

/-- `tools.get_index_from_char`: `ord(c) - MIN_ASCII_CHAR_NO` with
`MIN_ASCII_CHAR_NO = 36`.  There is no range check in the source. -/
def get_index_from_char (c : Char) : Int :=
  (c.toNat : Int) - 36

/-- `tools.get_char_from_index`: `chr(index + MIN_ASCII_CHAR_NO)`. -/
def get_char_from_index (i : Nat) : Char :=
  Char.ofNat (i + 36)

/-- `ASCII_NUM = MAX_ASCII_CHAR_NO - MIN_ASCII_CHAR_NO + 1 = 91`. -/
def ASCII_NUM : Nat := 91

/-! ## Bit strings -/

/-- `int(bits.to01(), 2)`: the big-endian value of a bit string. -/
def bits_val (l : List Bool) : Nat :=
  l.foldl (fun a b => 2 * a + (if b then 1 else 0)) 0

/-- Overwrite the first bit with `0` (`encoded_bin[0] = 0`). -/
def zero_first : List Bool → List Bool
  | [] => []
  | _ :: t => false :: t

/-- Overwrite the first bit with `1` (`length_comp[0] = 1`). -/
def one_first : List Bool → List Bool
  | [] => []
  | _ :: t => true :: t

/-- Fuel-indexed body of `decimal_to_binary` (repeated division by two,
prepending remainders).  Fuel `n + 1` always suffices for input `n`. -/
def dtb_go : Nat → Nat → List Bool
  | 0, _ => []
  | fuel + 1, n => if n = 0 then [] else dtb_go fuel (n / 2) ++ [n % 2 == 1]

/-- `decimal_to_binary(num)`: minimal big-endian binary representation,
empty for `0`. -/
def decimal_to_binary (n : Nat) : List Bool :=
  dtb_go (n + 1) n

theorem dtb_go_eq (n : Nat) : ∀ f g, n < f → n < g → dtb_go f n = dtb_go g n := by
  induction n using Nat.strong_induction_on with
  | _ n ih =>
    intro f g hf hg
    match f, g, hf, hg with
    | f + 1, g + 1, _, _ =>
      cases n with
      | zero => simp [dtb_go]
      | succ m =>
        have hd : (m + 1) / 2 < m + 1 := Nat.div_lt_self (Nat.succ_pos m) (by omega)
        simp only [dtb_go, if_neg (Nat.succ_ne_zero m)]
        rw [ih ((m + 1) / 2) hd f g (by omega) (by omega)]

theorem dtb_go_succ (f n : Nat) :
    dtb_go (f + 1) n = (if n = 0 then [] else dtb_go f (n / 2) ++ [n % 2 == 1]) := rfl

theorem decimal_to_binary_succ (n : Nat) (h : n ≠ 0) :
    decimal_to_binary n = decimal_to_binary (n / 2) ++ [n % 2 == 1] := by
  cases n with
  | zero => exact absurd rfl h
  | succ m =>
    have hd : (m + 1) / 2 < m + 1 := Nat.div_lt_self (Nat.succ_pos m) (by omega)
    show dtb_go (m + 1 + 1) (m + 1) = _
    rw [dtb_go_succ, if_neg (Nat.succ_ne_zero m),
      dtb_go_eq ((m + 1) / 2) (m + 1) ((m + 1) / 2 + 1) (by omega) (by omega)]
    rfl

theorem bits_val_append (a b : List Bool) :
    bits_val (a ++ b) = bits_val a * 2 ^ b.length + bits_val b := by
  have key : ∀ (b : List Bool) (init : Nat),
      b.foldl (fun a x => 2 * a + (if x then 1 else 0)) init =
      init * 2 ^ b.length + b.foldl (fun a x => 2 * a + (if x then 1 else 0)) 0 := by
    intro b
    induction b with
    | nil => intro init; simp
    | cons x t ih =>
      intro init
      simp only [List.foldl_cons, List.length_cons]
      rw [ih (2 * init + (if x then 1 else 0)), ih (2 * 0 + (if x then 1 else 0))]
      ring
  simp only [bits_val, List.foldl_append]
  exact key b (bits_val a)

theorem bits_val_decimal_to_binary (n : Nat) : bits_val (decimal_to_binary n) = n := by
  induction n using Nat.strong_induction_on with
  | _ n ih =>
    cases n with
    | zero => rfl
    | succ m =>
      rw [decimal_to_binary_succ (m + 1) (Nat.succ_ne_zero m), bits_val_append]
      have := ih ((m + 1) / 2) (Nat.div_lt_self (Nat.succ_pos m) (by omega))
      rw [this]
      have hm : bits_val [(m + 1) % 2 == 1] = (m + 1) % 2 := by
        rcases Nat.mod_two_eq_zero_or_one (m + 1) with h | h <;> simp [bits_val, h]
      simp only [List.length_singleton, pow_one, hm]
      omega

theorem decimal_to_binary_head (n : Nat) (h : 1 ≤ n) :
    ∃ t, decimal_to_binary n = true :: t := by
  induction n using Nat.strong_induction_on with
  | _ n ih =>
    match n, h with
    | 1, _ => exact ⟨[], rfl⟩
    | (m + 2), _ =>
      rw [decimal_to_binary_succ (m + 2) (by omega)]
      obtain ⟨t, ht⟩ := ih ((m + 2) / 2)
        (Nat.div_lt_self (by omega) (by omega)) (by
          have := Nat.div_le_div_right (c := 2) (show 2 ≤ m + 2 by omega)
          simp at this
          omega)
      exact ⟨t ++ [(m + 2) % 2 == 1], by rw [ht]; rfl⟩

theorem decimal_to_binary_length_le (n : Nat) (h : 1 ≤ n) :
    (decimal_to_binary n).length ≤ n := by
  induction n using Nat.strong_induction_on with
  | _ n ih =>
    match n, h with
    | 1, _ => simp [decimal_to_binary, dtb_go]
    | (m + 2), _ =>
      rw [decimal_to_binary_succ (m + 2) (by omega)]
      have hlt : (m + 2) / 2 < m + 2 := Nat.div_lt_self (by omega) (by omega)
      have hge : 1 ≤ (m + 2) / 2 := by
        have := Nat.div_le_div_right (c := 2) (show 2 ≤ m + 2 by omega)
        simp at this
        omega
      have := ih ((m + 2) / 2) hlt hge
      have hd : (m + 2) / 2 + 1 ≤ m + 2 := by omega
      simp only [List.length_append, List.length_singleton]
      omega

/-! ## Elias omega codec (`EliasCode` in `runlength_binary_bwt.py`) -/

/-- Fuel-indexed body of the `while len(encoded_bin) > 1` loop of
`EliasCode.encode`: repeatedly prepend the length component
(`decimal_to_binary(len - 1)` with its first bit forced to `0`).
Fuel `b.length + 1` always suffices. -/
def elias_wrap_go : Nat → List Bool → List Bool
  | 0, b => b
  | fuel + 1, b =>
    if b.length ≤ 1 then b
    else elias_wrap_go fuel (zero_first (decimal_to_binary (b.length - 1))) ++ b

/-- `EliasCode.encode(num)` as a pure function of the number.  The source
additionally memoises results in `self.encoded_num[num - 1]`; the cache
only ever stores the value computed here, so it does not change the
returned bits (the cache-index behaviour itself is modelled separately by
`elias_encode_memo`). -/
def elias_encode (n : Nat) : List Bool :=
  elias_wrap_go ((decimal_to_binary n).length + 1) (decimal_to_binary n)

theorem zero_first_length (b : List Bool) : (zero_first b).length = b.length := by
  cases b <;> rfl

theorem elias_wrap_go_eq (m : Nat) : ∀ (b : List Bool) (f g : Nat), b.length = m →
    b.length < f → b.length < g → elias_wrap_go f b = elias_wrap_go g b := by
  induction m using Nat.strong_induction_on with
  | _ m ih =>
    intro b f g hm hf hg
    match f, g, hf, hg with
    | f + 1, g + 1, _, _ =>
      by_cases h1 : b.length ≤ 1
      · simp [elias_wrap_go, h1]
      · simp only [elias_wrap_go, if_neg h1]
        have hlen : (zero_first (decimal_to_binary (b.length - 1))).length ≤ b.length - 1 := by
          rw [zero_first_length]
          exact decimal_to_binary_length_le _ (by omega)
        rw [ih (zero_first (decimal_to_binary (b.length - 1))).length (by omega) _ f g rfl
          (by omega) (by omega)]

theorem elias_wrap_go_succ (f : Nat) (b : List Bool) (h : ¬ b.length ≤ 1) :
    elias_wrap_go (f + 1) b =
      elias_wrap_go f (zero_first (decimal_to_binary (b.length - 1))) ++ b := by
  simp [elias_wrap_go, h]

/-- The recursion equation for `elias_encode`'s wrapping loop, stated for a
component `b` with at least two bits. -/
theorem elias_wrap_eq (b : List Bool) (h : 2 ≤ b.length) :
    elias_wrap_go (b.length + 1) b =
      elias_wrap_go ((zero_first (decimal_to_binary (b.length - 1))).length + 1)
        (zero_first (decimal_to_binary (b.length - 1))) ++ b := by
  have h1 : ¬ b.length ≤ 1 := by omega
  have hlen : (zero_first (decimal_to_binary (b.length - 1))).length ≤ b.length - 1 := by
    rw [zero_first_length]
    exact decimal_to_binary_length_le _ (by omega)
  rw [elias_wrap_go_succ b.length b h1,
    elias_wrap_go_eq (zero_first (decimal_to_binary (b.length - 1))).length _ b.length
      ((zero_first (decimal_to_binary (b.length - 1))).length + 1) rfl (by omega) (by omega)]

/-- Fuel-indexed body of the `EliasCode.decode` loop.  The source checks
`binary[:length_to_check][0]` (`IndexError`, hence `none`, on an empty
stream), strips a length component when that bit is `0`, and otherwise
returns `(binary[length_to_check:], int(binary[:length_to_check].to01(), 2))`. -/
def elias_decode_loop : Nat → List Bool → Nat → Option (List Bool × Nat)
  | 0, _, _ => none
  | _ + 1, [], _ => none
  | fuel + 1, b :: rest, lc =>
    if b then some (((b :: rest).drop lc), bits_val ((b :: rest).take lc))
    else elias_decode_loop fuel ((b :: rest).drop lc)
      (bits_val (one_first ((b :: rest).take lc)) + 1)

/-- `EliasCode.decode(binary)`.  The loop consumes at least one bit per
iteration (the running length is always positive), so fuel
`binary.length + 1` is never exhausted before the loop exits: `none` means
exactly that the Python code raises `IndexError`. -/
def elias_decode (binary : List Bool) : Option (List Bool × Nat) :=
  elias_decode_loop (binary.length + 1) binary 1

theorem elias_decode_loop_eq (m : Nat) : ∀ (b : List Bool) (lc f g : Nat), b.length = m →
    1 ≤ lc → b.length < f → b.length < g →
    elias_decode_loop f b lc = elias_decode_loop g b lc := by
  induction m using Nat.strong_induction_on with
  | _ m ih =>
    intro b lc f g hm hlc hf hg
    match f, g, hf, hg with
    | f + 1, g + 1, _, _ =>
      cases b with
      | nil => rfl
      | cons x rest =>
        cases x with
        | true => rfl
        | false =>
          simp only [elias_decode_loop, Bool.false_eq_true, if_false]
          have hdlen : ((false :: rest).drop lc).length < (false :: rest).length := by
            simp only [List.length_drop, List.length_cons]
            omega
          exact ih ((false :: rest).drop lc).length (by omega) _ _ f g rfl (by omega)
            (by omega) (by omega)

theorem one_first_zero_first (b : List Bool) : one_first (zero_first b) = one_first b := by
  cases b <;> rfl

theorem elias_decode_loop_cons (f : Nat) (x : Bool) (rest : List Bool) (lc : Nat) :
    elias_decode_loop (f + 1) (x :: rest) lc =
      (if x then some (((x :: rest).drop lc), bits_val ((x :: rest).take lc))
       else elias_decode_loop f ((x :: rest).drop lc)
         (bits_val (one_first ((x :: rest).take lc)) + 1)) := rfl

/-- Main decode/encode correspondence on a single component `b` of the chain
built by `elias_wrap_go`.  If `b` starts with `1` the decoder, entered with
`length_to_check = 1`, returns the value of `b` and the untouched rest of
the stream; if `b` starts with `0` the decoder strips all of
`elias_wrap_go _ b` and continues with length `value(one_first b) + 1`. -/
theorem elias_wrap_decode (m : Nat) : ∀ (b X : List Bool), b.length = m → 1 ≤ b.length →
    elias_decode_loop ((elias_wrap_go (b.length + 1) b ++ X).length + 1)
        (elias_wrap_go (b.length + 1) b ++ X) 1 =
      (if b.head? = some true
       then some (X, bits_val b)
       else elias_decode_loop (X.length + 1) X (bits_val (one_first b) + 1)) := by
  induction m using Nat.strong_induction_on with
  | _ m ih =>
    intro b X hm hb
    rcases Nat.lt_or_ge b.length 2 with hsmall | hbig
    · -- single-bit component: the wrap loop returns b unchanged
      have h1 : b.length = 1 := by omega
      obtain ⟨x, hx⟩ : ∃ x, b = [x] := by
        cases b with
        | nil => simp at h1
        | cons y t =>
          cases t with
          | nil => exact ⟨y, rfl⟩
          | cons z u => simp at h1
      subst hx
      have hw : elias_wrap_go ([x].length + 1) [x] = [x] := rfl
      rw [hw, List.singleton_append]
      cases x with
      | true =>
        have hlen : (true :: X).length + 1 = X.length + 1 + 1 := by simp
        rw [hlen, elias_decode_loop_cons]
        simp [bits_val]
      | false =>
        have hlen : (false :: X).length + 1 = X.length + 1 + 1 := by simp
        rw [hlen, elias_decode_loop_cons]
        simp only [Bool.false_eq_true, if_false, List.head?_cons]
        rw [if_neg (by simp)]
        have htake : (false :: X).take 1 = [false] := rfl
        have hdrop : (false :: X).drop 1 = X := rfl
        rw [htake, hdrop]
    · -- at least two bits: the loop prepends a zero-headed length component
      set c := zero_first (decimal_to_binary (b.length - 1)) with hc
      obtain ⟨t, ht⟩ := decimal_to_binary_head (b.length - 1) (by omega)
      have hcne : c = false :: t := by rw [hc, ht]; rfl
      have hclen : c.length ≤ b.length - 1 := by
        rw [hc, zero_first_length]
        exact decimal_to_binary_length_le _ (by omega)
      have hclen1 : 1 ≤ c.length := by rw [hcne]; simp
      have hcv : bits_val (one_first c) = b.length - 1 := by
        rw [hc, one_first_zero_first, ht]
        show bits_val (true :: t) = b.length - 1
        rw [← ht, bits_val_decimal_to_binary]
      have hw := elias_wrap_eq b hbig
      rw [← hc] at hw
      -- rewrite the stream as (elias_wrap_go _ c) ++ (b ++ X)
      rw [hw, List.append_assoc]
      have hih := ih c.length (by omega) c (b ++ X) rfl hclen1
      rw [if_neg (by rw [hcne]; simp)] at hih
      rw [hih, hcv]
      have hlc : b.length - 1 + 1 = b.length := by omega
      rw [hlc]
      -- now one decoding step over the component b itself
      cases b with
      | nil => simp at hb
      | cons y u =>
        rw [List.cons_append]
        have hlen : (y :: (u ++ X)).length + 1 = (u ++ X).length + 1 + 1 := by simp
        rw [hlen, elias_decode_loop_cons]
        have htake : (y :: (u ++ X)).take (y :: u).length = y :: u := by
          rw [← List.cons_append, List.take_left]
        have hdrop : (y :: (u ++ X)).drop (y :: u).length = X := by
          rw [← List.cons_append, List.drop_left]
        rw [htake, hdrop]
        cases y with
        | true =>
          simp only [if_true, List.head?_cons]
        | false =>
          simp only [Bool.false_eq_true, if_false, List.head?_cons]
          rw [if_neg (by simp)]
          exact elias_decode_loop_eq X.length X _ ((u ++ X).length + 1) (X.length + 1) rfl
            (by omega) (by simp only [List.length_append]; omega) (by omega)

/-- C2.  For every `n ≥ 1` and every bit suffix, Elias-omega decoding of
`encode(n) ++ suffix` yields the pair `(suffix, n)`: the decoded integer is
exactly `n` and exactly `suffix` is left over. -/
theorem elias_roundtrip (n : Nat) (X : List Bool) (h : 1 ≤ n) :
    elias_decode (elias_encode n ++ X) = some (X, n) := by
  obtain ⟨t, ht⟩ := decimal_to_binary_head n h
  have hlen : 1 ≤ (decimal_to_binary n).length := by rw [ht]; simp
  have := elias_wrap_decode (decimal_to_binary n).length (decimal_to_binary n) X rfl hlen
  rw [if_pos (by rw [ht]; rfl)] at this
  unfold elias_decode elias_encode
  rw [this, bits_val_decimal_to_binary]

/-- Closed-form instance of `elias_roundtrip`. -/
theorem elias_roundtrip_witness :
    1 ≤ 5 ∧ elias_decode (elias_encode 5 ++ [true]) = some ([true], 5) :=
  ⟨by decide, elias_roundtrip 5 [true] (by decide)⟩

/-- C7.  On the stream `01` — the encoding of `2` (which is `010`) cut off
inside its final number component — `EliasCode.decode` does not signal any
failure: it silently returns the integer `1` (and an empty rest), although
`1` encodes as the single bit `1`.  The truncation is therefore not
detected. -/
theorem elias_decode_truncated_returns_value :
    elias_encode 2 = [false, true, false] ∧
      elias_decode [false, true] = some ([], 1) ∧
      elias_encode 1 = [true] := by
  refine ⟨by decide, ?_, by decide⟩
  decide

/-! ## Huffman codec (`HuffmanNode`, `HuffmanCode` in `runlength_binary_bwt.py`)

`HuffmanNode.__add__` always sets both children, so every reachable tree is
either a childless leaf or a node with two children; `HTree` records exactly
these two shapes.  `__lt__` compares frequencies only.  The heap is embedded
as a list manipulated by CPython's `heapq` sift algorithms, so that
tie-breaking behaves exactly as in the source. -/

inductive HTree where
  | leaf (freq : Nat) (data : List Char)
  | node (freq : Nat) (data : List Char) (l r : HTree)

/-- `HuffmanNode.freq`. -/
def hfreq : HTree → Nat
  | .leaf f _ => f
  | .node f _ _ _ => f

/-- `HuffmanNode.data`. -/
def hdata : HTree → List Char
  | .leaf _ d => d
  | .node _ d _ _ => d

/-- `HuffmanNode.__lt__`: comparison by frequency only. -/
def hlt (a b : HTree) : Bool := hfreq a < hfreq b

/-- `HuffmanNode.__add__`: combined node with summed frequency,
concatenated data, and the two operands as children. -/
def hadd (a b : HTree) : HTree :=
  .node (hfreq a + hfreq b) (hdata a ++ hdata b) a b

/-- CPython `heapq._siftdown` loop: move `newitem` towards the root while it
is smaller than its parent.  `pos` strictly decreases, so fuel `pos + 1`
suffices. -/
def siftdown_loop : Nat → List HTree → Nat → HTree → Nat → Option (List HTree)
  | 0, _, _, _, _ => none
  | fuel + 1, heap, startpos, newitem, pos =>
    if startpos < pos then
      let parentpos := (pos - 1) / 2
      match heap.get? parentpos with
      | none => none
      | some parent =>
        if hlt newitem parent then
          siftdown_loop fuel (heap.set pos parent) startpos newitem parentpos
        else some (heap.set pos newitem)
    else some (heap.set pos newitem)

/-- CPython `heapq._siftdown`. -/
def siftdown (heap : List HTree) (startpos pos : Nat) : Option (List HTree) := do
  let newitem ← heap.get? pos
  siftdown_loop (pos + 1) heap startpos newitem pos

/-- CPython `heapq._siftup` loop: walk down to a leaf, always moving the
smaller child up; returns the heap and the final position. -/
def siftup_loop : Nat → List HTree → Nat → Nat → Option (List HTree × Nat)
  | 0, _, _, _ => none
  | fuel + 1, heap, pos, childpos =>
    if childpos < heap.length then do
      let rightpos := childpos + 1
      let c ← heap.get? childpos
      let childpos2 ←
        if rightpos < heap.length then do
          let r ← heap.get? rightpos
          pure (if ¬ hlt c r then rightpos else childpos)
        else pure childpos
      let moved ← heap.get? childpos2
      siftup_loop fuel (heap.set pos moved) childpos2 (2 * childpos2 + 1)
    else some (heap, pos)

/-- CPython `heapq._siftup`. -/
def siftup (heap : List HTree) (pos : Nat) : Option (List HTree) := do
  let newitem ← heap.get? pos
  let (heap1, finalpos) ← siftup_loop (heap.length + 1) heap pos (2 * pos + 1)
  siftdown (heap1.set finalpos newitem) pos finalpos

/-- CPython `heapq.heappush`. -/
def heappush (heap : List HTree) (item : HTree) : Option (List HTree) :=
  siftdown (heap ++ [item]) 0 heap.length

/-- CPython `heapq.heappop` (raises `IndexError` on an empty heap). -/
def heappop (heap : List HTree) : Option (HTree × List HTree) :=
  match heap.getLast? with
  | none => none
  | some lastelt =>
    let heap2 := heap.dropLast
    if heap2.isEmpty then some (lastelt, heap2)
    else do
      let returnitem ← heap2.get? 0
      let heap3 ← siftup (heap2.set 0 lastelt) 0
      some (returnitem, heap3)

/-- `HuffmanCode.get_freq_heap`: push a leaf for every index with a truthy
(nonzero) frequency, in index order. -/
def get_freq_heap (freq_arr : List Nat) : Option (List HTree) :=
  freq_arr.enum.foldlM
    (fun heap p =>
      if p.2 ≠ 0 then heappush heap (.leaf p.2 [get_char_from_index p.1])
      else some heap)
    []

/-- The `while len(freq_heap) > 1` loop of `HuffmanCode.build_tree`: pop the
two smallest nodes, combine, push back.  Each round shrinks the heap by
one, so fuel `length + 1` suffices. -/
def build_tree_loop : Nat → List HTree → Option (List HTree)
  | 0, _ => none
  | fuel + 1, heap =>
    if 1 < heap.length then do
      let (first, h1) ← heappop heap
      let (second, h2) ← heappop h1
      let h3 ← heappush h2 (hadd first second)
      build_tree_loop fuel h3
    else some heap

/-- `HuffmanCode.build_tree`: returns `freq_heap[0]` (`IndexError`, hence
`none`, when no character has nonzero frequency). -/
def build_tree (freq_arr : List Nat) : Option HTree := do
  let heap ← get_freq_heap freq_arr
  let final ← build_tree_loop (heap.length + 1) heap
  final.get? 0

/-- `HuffmanCode.get_letters_encoding`: traverse left (appending `0`) then
right (appending `1`); at a childless node store the accumulated bit string
at `letters_encoding[get_index_from_char(node.data)]` (a `TypeError` is
raised if the data of a childless node is not a single character). -/
def collect_codes : HTree → List Bool → List (Option (List Bool)) →
    Option (List (Option (List Bool)))
  | .node _ _ l r, bitstring, table => do
    let t1 ← collect_codes l (bitstring ++ [false]) table
    collect_codes r (bitstring ++ [true]) t1
  | .leaf _ d, bitstring, table =>
    match d with
    | [c] => py_set table (get_index_from_char c) (some bitstring)
    | _ => none

/-- The encoding table built by `HuffmanCode.__init__(freq_arr)`:
`letters_encoding` after `get_letters_encoding()` has run. -/
def huffman_table (freq_arr : List Nat) : Option (List (Option (List Bool))) := do
  let tree ← build_tree freq_arr
  collect_codes tree [] (List.replicate ASCII_NUM none)

/-- Frequency table in which `'a'` (index 61) is the only symbol with
nonzero frequency, as arises for the body alphabet of `"aaaa"`. -/
def c5_freq : List Nat := (List.replicate ASCII_NUM 0).set 61 4

/-- C5.  When the frequency table contains exactly one symbol with nonzero
frequency, `build_tree` returns the bare leaf and `get_letters_encoding`
stores the *empty* bit string for that symbol — not the single bit `0`
required by the claim.  The code therefore contradicts the documented
special case. -/
theorem huffman_single_symbol_empty_code :
    get_index_from_char 'a' = 61 ∧
      (huffman_table c5_freq).bind (fun t => t.get? 61) = some (some []) := by
  constructor
  · decide
  · decide

/-! ## Suffix tree (`ukkonen_algo.py`)

Mutable `Node`/`Edge` objects become an arena: node identifiers index the
list `nodes`, an edge lives in exactly one child slot of its parent, and
mutating `next_edge` in place becomes rewriting that slot.  `global_end`
(`float("inf")`) is the `none` end point; `get_edge_length` never reads the
end point of a leaf edge, and comparing a remainder against an infinite
edge length is always false, matching float comparison.  `NAN = -1`. -/

def NAN : Int := -1

structure UEdge where
  startP : Int
  endP : Option Int
  child : Nat
deriving Repr, DecidableEq

structure UNode where
  children : List (Option UEdge)
  leafNum : Int
  slink : Option Nat
deriving Repr, DecidableEq

structure STState where
  str : List Char
  nodes : List UNode
  activeNode : Option Nat
  remStart : Int
  remEnd : Int
  lastJ : Int
  prevAdded : Option Nat
deriving Repr, DecidableEq

/-- `SuffixTree.get_remainder_length`. -/
def get_remainder_length (st : STState) : Int :=
  st.remEnd - st.remStart + 1

/-- `SuffixTree.get_edge_length`: the current phase for a leaf edge, else
the stored end point; the inner `none` is the infinite length of a
(unreachable) non-leaf edge with symbolic end. -/
def get_edge_length (st : STState) (e : UEdge) (phase : Int) : Option (Option Int) :=
  (st.nodes.get? e.child).map (fun nd =>
    if nd.leafNum ≠ NAN then some (phase - e.startP + 1)
    else e.endP.map (fun ep => ep - e.startP + 1))

/-- The `while True` descent loop of `SuffixTree.skip_count`, entered when
the remainder length is positive.  Returns the updated state together with
`next_edge_index` and `next_edge`. -/
def skip_loop : Nat → STState → Int → Int → Option (STState × Int × Option UEdge)
  | 0, _, _, _ => none
  | fuel + 1, st, phase, remLen => do
    let a ← st.activeNode
    let nd ← st.nodes.get? a
    let ch ← py_get st.str st.remStart
    let nei := get_index_from_char ch
    let slot ← py_get nd.children nei
    match slot with
    | none => some (st, nei, none)
    | some e => do
      let elen ← get_edge_length st e phase
      match elen with
      | none => some (st, nei, some e)
      | some len =>
        if remLen ≥ len then
          let remLen2 := remLen - len
          skip_loop fuel
            { st with
                remStart := if remLen2 ≠ 0 then st.remStart + len else phase,
                activeNode := some e.child }
            phase remLen2
        else some (st, nei, some e)

/-- `SuffixTree.skip_count`. -/
def skip_count (fuel : Nat) (st : STState) (phase : Int) :
    Option (STState × Int × Option UEdge) :=
  if get_remainder_length st > 0 then skip_loop fuel st phase (get_remainder_length st)
  else do
    let a ← st.activeNode
    let nd ← st.nodes.get? a
    let ch ← py_get st.str phase
    let nei := get_index_from_char ch
    let slot ← py_get nd.children nei
    some (st, nei, slot)

/-- Store edge `e` into child slot `nei` of node `a`
(`self.active_node.children[next_edge_index] = ...` and the in-place
mutation of `next_edge`, which lives in that same slot). -/
def set_child_slot (st : STState) (a : Nat) (nei : Int) (e : Option UEdge) :
    Option STState := do
  let nd ← st.nodes.get? a
  let ch ← py_set nd.children nei e
  some { st with nodes := st.nodes.set a { nd with children := ch } }

/-- `SuffixTree.suffix_extension`.  Returns the updated state and the break
flag (`True` exactly for rule 3). -/
def suffix_extension (st : STState) (phase j nei : Int) (edge? : Option UEdge) :
    Option (STState × Bool) :=
  match edge? with
  | none => do
    -- rule 2 case 1: new leaf under the active node
    let a ← st.activeNode
    let leafId := st.nodes.length
    let newLeaf : UNode :=
      { children := List.replicate ASCII_NUM none, leafNum := j, slink := none }
    let newEdge : UEdge := { startP := phase, endP := none, child := leafId }
    let st1 := { st with nodes := st.nodes ++ [newLeaf] }
    let st2 ← set_child_slot st1 a nei (some newEdge)
    let st3 := { st2 with lastJ := st2.lastJ + 1 }
    match st3.prevAdded with
    | none => some (st3, false)
    | some p => do
      let pnd ← st3.nodes.get? p
      some ({ { st3 with nodes := st3.nodes.set p { pnd with slink := some a } }
                with prevAdded := none }, false)
  | some e => do
    let lenRem : Int := if st.remEnd < st.remStart then 0 else get_remainder_length st
    let checkPos := e.startP + lenRem
    let cCheck ← py_get st.str checkPos
    let cPhase ← py_get st.str phase
    if cCheck = cPhase then
      -- rule 3: remember the matched remainder and break out of the phase
      let st1 := { st with remStart := e.startP, remEnd := checkPos }
      match st1.prevAdded with
      | none => some (st1, true)
      | some p => do
        let pnd ← st1.nodes.get? p
        some ({ st1 with
                  nodes := st1.nodes.set p { pnd with slink := st1.activeNode } }, true)
    else do
      -- rule 2 case 2: split the edge with a fresh internal node
      let a ← st.activeNode
      let internalId := st.nodes.length
      let leafId := internalId + 1
      let extEdge : UEdge := { startP := checkPos, endP := e.endP, child := e.child }
      let branchEdge : UEdge := { startP := phase, endP := none, child := leafId }
      let ch1 ← py_set (List.replicate ASCII_NUM none)
        (get_index_from_char cCheck) (some extEdge)
      let ch2 ← py_set ch1 (get_index_from_char cPhase) (some branchEdge)
      let newInternal : UNode := { children := ch2, leafNum := NAN, slink := some 0 }
      let newLeaf : UNode :=
        { children := List.replicate ASCII_NUM none, leafNum := j, slink := none }
      let st1 := { st with nodes := st.nodes ++ [newInternal, newLeaf] }
      let st2 ← set_child_slot st1 a nei
        (some { startP := e.startP, endP := some (checkPos - 1), child := internalId })
      match st2.prevAdded with
      | none => some ({ st2 with prevAdded := some internalId, lastJ := st2.lastJ + 1 }, false)
      | some p => do
        let pnd ← st2.nodes.get? p
        some ({ { st2 with nodes := st2.nodes.set p { pnd with slink := some internalId } }
                  with prevAdded := some internalId, lastJ := st2.lastJ + 1 }, false)

/-- `SuffixTree.suffix_link_jump`. -/
def suffix_link_jump (st : STState) : Option STState :=
  if st.activeNode = some 0 ∧ get_remainder_length st > 0 then
    some { st with remStart := st.remStart + 1 }
  else if st.activeNode ≠ some 0 then do
    let a ← st.activeNode
    let nd ← st.nodes.get? a
    some { st with activeNode := nd.slink }
  else some st

/-- Python `range(a, b)` over integers. -/
def int_range (a b : Int) : List Int :=
  (List.range (b - a).toNat).map (fun k : Nat => a + (k : Int))

/-- The extension loop of `SuffixTree.add_char` over the fixed list of
extension indices `range(last_j + 1, phase + 1)`. -/
def ext_loop (fuel : Nat) (phase : Int) : List Int → STState → Option STState
  | [], st => some st
  | j :: rest, st => do
    let (st1, nei, edge?) ← skip_count fuel st phase
    let (st2, brk) ← suffix_extension st1 phase j nei edge?
    if brk then some st2
    else do
      let st3 ← suffix_link_jump st2
      ext_loop fuel phase rest st3

/-- `SuffixTree.add_char`. -/
def add_char (fuel : Nat) (st : STState) (phase : Int) : Option STState :=
  ext_loop fuel phase (int_range (st.lastJ + 1) (phase + 1)) { st with prevAdded := none }

/-- The state after `SuffixTree.__init__` has created the root (which is its
own suffix link) and `add_string` has set the active node to the root. -/
def init_state (s : List Char) : STState :=
  { str := s,
    nodes := [{ children := List.replicate ASCII_NUM none, leafNum := NAN, slink := some 0 }],
    activeNode := some 0, remStart := 0, remEnd := -1, lastJ := -1, prevAdded := none }

/-- The first `k` phases of `SuffixTree.add_string`. -/
def build_phases (s : List Char) (k : Nat) (fuel : Nat) : Option STState :=
  (List.range k).foldlM (fun (st : STState) (i : Nat) => add_char fuel st (i : Int))
    (init_state s)

/-- `SuffixTree.add_string`: all `len(string)` phases. -/
def build_suffix_tree (s : List Char) (fuel : Nat) : Option STState :=
  build_phases s s.length fuel

/-- `SuffixTree.dfs`: traverse child slots in index order, appending
`leaf_num` whenever the child node is a leaf, then recursing into it. -/
def dfs_node : Nat → STState → Nat → List Int → Option (List Int)
  | 0, _, _, _ => none
  | fuel + 1, st, i, acc => do
    let nd ← st.nodes.get? i
    nd.children.foldlM
      (fun acc slot =>
        match slot with
        | none => some acc
        | some e => do
          let cnd ← st.nodes.get? e.child
          let acc1 := if cnd.leafNum ≠ NAN then acc ++ [cnd.leafNum] else acc
          dfs_node fuel st e.child acc1)
      acc

/-- `SuffixTree.get_suffix_array` for a fully built tree. -/
def get_suffix_array (s : List Char) (fuel : Nat) : Option (List Int) := do
  let st ← build_suffix_tree s fuel
  dfs_node fuel st 0 []

/-! ## The internal-node invariant (claim C9)

A node is a leaf iff its `leaf_num` differs from `NAN`; internal nodes are
the non-root non-leaf nodes.  The invariant states that every internal node
has at least two child edges.  It holds because children are never removed:
rule 2 case 1 fills an empty slot of an existing node, rule 2 case 2
creates the internal node together with both of its children (at two
distinct indices, since the mismatching characters differ), and rule 3
touches no child table. -/

def num_children (nd : UNode) : Nat :=
  nd.children.countP Option.isSome

def GoodTree (nodes : List UNode) : Prop :=
  ∀ i nd, nodes.get? i = some nd → 0 < i → nd.leafNum = NAN → 2 ≤ num_children nd

def ChildrenLen (nodes : List UNode) : Prop :=
  ∀ i nd, nodes.get? i = some nd → nd.children.length = ASCII_NUM

def ValidChars (s : List Char) : Prop :=
  ∀ c ∈ s, 36 ≤ c.toNat ∧ c.toNat ≤ 126

def STInv (st : STState) : Prop :=
  GoodTree st.nodes ∧ ChildrenLen st.nodes ∧ -1 ≤ st.lastJ ∧ ValidChars st.str

/-- The character-range and unique-sentinel requirements on encoder input. -/
def valid_input (s : List Char) : Bool :=
  (decide (s ≠ [])) && s.all (fun c => decide (36 ≤ c.toNat) && decide (c.toNat ≤ 126)) &&
    (s.getLast? == some '$') && s.dropLast.all (fun c => decide (c ≠ '$'))

theorem valid_input_chars {s : List Char} (h : valid_input s = true) : ValidChars s := by
  intro c hc
  simp only [valid_input, Bool.and_eq_true, List.all_eq_true] at h
  have := h.1.1.2 c hc
  simp only [Bool.and_eq_true, decide_eq_true_eq] at this
  exact this

theorem pget_set_same {α : Type} : ∀ (l : List α) (i : Nat) (v : α), i < l.length →
    (l.set i v).get? i = some v := by
  intro l
  induction l with
  | nil => intro i v h; simp at h
  | cons a t ih =>
    intro i v h
    cases i with
    | zero => rfl
    | succ j => exact ih j v (by simpa using h)

theorem pget_set_other {α : Type} : ∀ (l : List α) (i j : Nat) (v : α), i ≠ j →
    (l.set i v).get? j = l.get? j := by
  intro l
  induction l with
  | nil => intro i j v _; simp
  | cons a t ih =>
    intro i j v hij
    cases i with
    | zero =>
      cases j with
      | zero => exact absurd rfl hij
      | succ j2 => rfl
    | succ i2 =>
      cases j with
      | zero => rfl
      | succ j2 => exact ih i2 j2 v (by omega)

theorem countP_le_set {α : Type} (p : α → Bool) : ∀ (l : List α) (i : Nat) (v : α),
    p v = true → l.countP p ≤ (l.set i v).countP p := by
  intro l
  induction l with
  | nil => intro i v _; simp
  | cons a t ih =>
    intro i v hv
    cases i with
    | zero =>
      simp only [List.set_cons_zero, List.countP_cons]
      have h1 : (if p v then 1 else 0) = 1 := by simp [hv]
      have h2 : (if p a then 1 else 0) ≤ 1 := by split <;> omega
      omega
    | succ j =>
      simp only [List.set_cons_succ, List.countP_cons]
      have := ih j v hv
      omega

theorem two_le_countP {α : Type} (p : α → Bool) : ∀ (l : List α) (i j : Nat) (x y : α),
    i ≠ j → l.get? i = some x → l.get? j = some y → p x = true → p y = true →
    2 ≤ l.countP p := by
  intro l
  induction l with
  | nil => intro i j x y _ hx _ _ _; simp at hx
  | cons a t ih =>
    intro i j x y hij hx hy hpx hpy
    cases i with
    | zero =>
      cases j with
      | zero => exact absurd rfl hij
      | succ j2 =>
        simp only [List.get?_cons_zero, Option.some_inj] at hx
        simp only [List.get?_cons_succ] at hy
        have h1 : 0 < t.countP p :=
          List.countP_pos_iff.mpr ⟨y, List.get?_mem hy, hpy⟩
        have h2 : (if p a then 1 else 0) = 1 := by
          have : p a = true := by rw [hx]; exact hpx
          simp [this]
        simp only [List.countP_cons]
        omega
    | succ i2 =>
      cases j with
      | zero =>
        simp only [List.get?_cons_zero, Option.some_inj] at hy
        simp only [List.get?_cons_succ] at hx
        have h1 : 0 < t.countP p :=
          List.countP_pos_iff.mpr ⟨x, List.get?_mem hx, hpx⟩
        have h2 : (if p a then 1 else 0) = 1 := by
          have : p a = true := by rw [hy]; exact hpy
          simp [this]
        simp only [List.countP_cons]
        omega
      | succ j2 =>
        simp only [List.get?_cons_succ] at hx hy
        have := ih i2 j2 x y (by omega) hx hy hpx hpy
        simp only [List.countP_cons]
        omega

theorem py_idx_lt {len : Nat} {i : Int} {j : Nat} (h : py_idx len i = some j) : j < len := by
  simp only [py_idx] at h
  split at h
  · split at h
    · simp only [Option.some_inj] at h
      omega
    · exact absurd h (by simp)
  · split at h
    · simp only [Option.some_inj] at h
      omega
    · exact absurd h (by simp)

theorem py_set_eq {α : Type} {l : List α} {i : Int} {v : α} {l2 : List α}
    (h : py_set l i v = some l2) :
    ∃ j, j < l.length ∧ py_idx l.length i = some j ∧ l2 = l.set j v := by
  simp only [py_set, Option.map_eq_some'] at h
  obtain ⟨j, hj, hl⟩ := h
  exact ⟨j, py_idx_lt hj, hj, hl.symm⟩

theorem py_get_mem {α : Type} {l : List α} {i : Int} {x : α} (h : py_get l i = some x) :
    x ∈ l := by
  simp only [py_get, Option.bind_eq_some] at h
  obtain ⟨j, _, hg⟩ := h
  exact List.get?_mem hg

theorem py_idx_of_range {len : Nat} {i : Int} (h0 : 0 ≤ i) (h1 : i < (len : Int)) :
    py_idx len i = some i.toNat := by
  simp [py_idx, h0, h1]

theorem int_range_mem {a b j : Int} (h : j ∈ int_range a b) : a ≤ j := by
  simp only [int_range, List.mem_map, List.mem_range] at h
  obtain ⟨k, hk1, hk2⟩ := h
  omega

theorem bind_eq_obind {α β : Type} (x : Option α) (g : α → Option β) :
    x >>= g = x.bind g := rfl

theorem pget_lt {α : Type} {l : List α} {i : Nat} {x : α} (h : l.get? i = some x) :
    i < l.length := by
  by_contra hge
  rw [List.get?_eq_none.mpr (by omega)] at h
  exact Option.noConfusion h

theorem char_toNat_inj {c d : Char} (h : c.toNat = d.toNat) : c = d := by
  have h1 : Char.ofNat c.toNat = Char.ofNat d.toNat := by rw [h]
  rwa [Char.ofNat_toNat, Char.ofNat_toNat] at h1

/-- Replacing a node by one with the same `leafNum` and at least as many
children preserves `GoodTree`. -/
theorem good_tree_set {nodes : List UNode} {p : Nat} {ndOld ndNew : UNode}
    (hget : nodes.get? p = some ndOld) (hG : GoodTree nodes)
    (hleaf : ndNew.leafNum = ndOld.leafNum)
    (hch : num_children ndOld ≤ num_children ndNew) :
    GoodTree (nodes.set p ndNew) := by
  intro i nd hi hpos hnd
  by_cases hip : p = i
  · subst hip
    rw [pget_set_same _ _ _ (pget_lt hget)] at hi
    cases hi
    have := hG p ndOld hget hpos (by rw [← hleaf]; exact hnd)
    omega
  · rw [pget_set_other _ _ _ _ hip] at hi
    exact hG i nd hi hpos hnd

theorem children_len_set {nodes : List UNode} {p : Nat} {ndNew : UNode}
    (hc : ndNew.children.length = ASCII_NUM) (hC : ChildrenLen nodes) :
    ChildrenLen (nodes.set p ndNew) := by
  intro i nd hi
  by_cases hip : p = i
  · subst hip
    by_cases hlt : p < nodes.length
    · rw [pget_set_same _ _ _ hlt] at hi
      cases hi
      exact hc
    · rw [List.set_eq_of_length_le (by omega)] at hi
      exact hC p nd hi
  · rw [pget_set_other _ _ _ _ hip] at hi
    exact hC i nd hi

theorem good_tree_append {nodes new : List UNode} (hG : GoodTree nodes)
    (hnew : ∀ nd ∈ new, nd.leafNum = NAN → 2 ≤ num_children nd) :
    GoodTree (nodes ++ new) := by
  intro i nd hi hpos hnd
  by_cases hlt : i < nodes.length
  · rw [List.get?_append hlt] at hi
    exact hG i nd hi hpos hnd
  · rw [List.get?_append_right (by omega)] at hi
    exact hnew nd (List.get?_mem hi) hnd

theorem children_len_append {nodes new : List UNode} (hC : ChildrenLen nodes)
    (hnew : ∀ nd ∈ new, nd.children.length = ASCII_NUM) :
    ChildrenLen (nodes ++ new) := by
  intro i nd hi
  by_cases hlt : i < nodes.length
  · rw [List.get?_append hlt] at hi
    exact hC i nd hi
  · rw [List.get?_append_right (by omega)] at hi
    exact hnew nd (List.get?_mem hi)

/-- `set_child_slot` writes an edge into one child slot: the child count of
that node can only grow, all other nodes are untouched. -/
theorem set_child_slot_pres {st : STState} {a : Nat} {nei : Int} {e : UEdge}
    {st2 : STState} (h : set_child_slot st a nei (some e) = some st2)
    (hG : GoodTree st.nodes) (hC : ChildrenLen st.nodes) :
    GoodTree st2.nodes ∧ ChildrenLen st2.nodes ∧ st2.str = st.str ∧
      st2.lastJ = st.lastJ ∧ st2.prevAdded = st.prevAdded := by
  simp only [set_child_slot, bind_eq_obind, Option.bind_eq_some] at h
  obtain ⟨nd, hnd, ch, hch, h⟩ := h
  simp only [Option.some_inj] at h
  obtain ⟨j, hjlt, hidx, hset⟩ := py_set_eq hch
  subst hset
  cases h.symm
  refine ⟨?_, ?_, rfl, rfl, rfl⟩
  · exact good_tree_set hnd hG rfl (by
      simp only [num_children]
      exact countP_le_set _ nd.children j (some e) rfl)
  · exact children_len_set (by
      simp only [List.length_set]
      exact hC a nd hnd) hC

theorem countP_double_set {α : Type} (p : α → Bool) (base : List α) (j1 j2 : Nat)
    (v1 v2 : α) (hp1 : p v1 = true) (hp2 : p v2 = true) (hne : j1 ≠ j2)
    (hl1 : j1 < base.length) (hl2 : j2 < base.length) :
    2 ≤ ((base.set j1 v1).set j2 v2).countP p := by
  apply two_le_countP p _ j1 j2 v1 v2 hne ?_ ?_ hp1 hp2
  · rw [pget_set_other _ _ _ _ (fun hc => hne hc.symm), pget_set_same _ _ _ hl1]
  · apply pget_set_same
    simpa using hl2

/-- `suffix_extension` preserves the invariant: rule 2 case 1 only fills an
empty slot of an existing node, rule 3 touches no child table, and rule 2
case 2 creates its internal node together with two children at distinct
indices. -/
theorem suffix_extension_inv {st : STState} {phase j nei : Int} {edge? : Option UEdge}
    {st' : STState} {brk : Bool}
    (h : suffix_extension st phase j nei edge? = some (st', brk))
    (hI : STInv st) (hj : 0 ≤ j) :
    STInv st' ∧ st'.str = st.str := by
  obtain ⟨hG, hC, hL, hV⟩ := hI
  cases edge? with
  | none =>
    simp only [suffix_extension, bind_eq_obind, Option.bind_eq_some] at h
    obtain ⟨a, ha, st2, hst2, h⟩ := h
    have hGapp : GoodTree (st.nodes ++
        [{ children := List.replicate ASCII_NUM none, leafNum := j,
           slink := none : UNode }]) := by
      apply good_tree_append hG
      intro nd hnd hleaf
      simp only [List.mem_singleton] at hnd
      subst hnd
      simp only [NAN] at hleaf
      omega
    have hCapp : ChildrenLen (st.nodes ++
        [{ children := List.replicate ASCII_NUM none, leafNum := j,
           slink := none : UNode }]) := by
      apply children_len_append hC
      intro nd hnd
      simp only [List.mem_singleton] at hnd
      subst hnd
      simp [ASCII_NUM]
    obtain ⟨hG2, hC2, hs2, hl2, hp2⟩ := set_child_slot_pres hst2 hGapp hCapp
    have hstr2 : st2.str = st.str := hs2
    have hlastJ2 : st2.lastJ = st.lastJ := hl2
    split at h
    · -- prev_added_node is None
      simp only [Option.some_inj, Prod.mk.injEq] at h
      obtain ⟨hst', _⟩ := h
      subst hst'
      refine ⟨⟨hG2, hC2, ?_, ?_⟩, hstr2⟩
      · show -1 ≤ st2.lastJ + 1
        omega
      · show ValidChars st2.str
        rw [hstr2]
        exact hV
    · -- prev_added_node gets its suffix link resolved
      rename_i p hp
      simp only [bind_eq_obind, Option.bind_eq_some] at h
      obtain ⟨pnd, hpnd0, h⟩ := h
      have hpnd : st2.nodes.get? p = some pnd := hpnd0
      simp only [Option.some_inj, Prod.mk.injEq] at h
      obtain ⟨hst', _⟩ := h
      subst hst'
      refine ⟨⟨?_, ?_, ?_, ?_⟩, hstr2⟩
      · exact good_tree_set hpnd hG2 rfl le_rfl
      · exact children_len_set (hC2 p pnd hpnd) hC2
      · show -1 ≤ st2.lastJ + 1
        omega
      · show ValidChars st2.str
        rw [hstr2]
        exact hV
  | some e =>
    simp only [suffix_extension, bind_eq_obind, Option.bind_eq_some] at h
    obtain ⟨cCheck, hcc, cPhase, hcp, h⟩ := h
    by_cases heq : cCheck = cPhase
    · -- rule 3
      rw [if_pos heq] at h
      split at h
      · simp only [Option.some_inj, Prod.mk.injEq] at h
        obtain ⟨hst', _⟩ := h
        subst hst'
        exact ⟨⟨hG, hC, hL, hV⟩, rfl⟩
      · rename_i p hp
        simp only [bind_eq_obind, Option.bind_eq_some] at h
        obtain ⟨pnd, hpnd0, h⟩ := h
        have hpnd : st.nodes.get? p = some pnd := hpnd0
        simp only [Option.some_inj, Prod.mk.injEq] at h
        obtain ⟨hst', _⟩ := h
        subst hst'
        refine ⟨⟨?_, ?_, hL, hV⟩, rfl⟩
        · exact good_tree_set hpnd hG rfl le_rfl
        · exact children_len_set (hC p pnd hpnd) hC
    · -- rule 2 case 2
      rw [if_neg heq] at h
      simp only [bind_eq_obind, Option.bind_eq_some] at h
      obtain ⟨a, ha, ch1, hch1, ch2, hch2, st2, hst2, h⟩ := h
      obtain ⟨hcc1, hcc2⟩ := hV cCheck (py_get_mem hcc)
      obtain ⟨hcp1, hcp2⟩ := hV cPhase (py_get_mem hcp)
      obtain ⟨j1, hj1lt, hj1idx, hch1eq⟩ := py_set_eq hch1
      obtain ⟨j2, hj2lt, hj2idx, hch2eq⟩ := py_set_eq hch2
      have hj1lt' : j1 < ASCII_NUM := by simpa using hj1lt
      have hj2lt' : j2 < ASCII_NUM := by
        rw [hch1eq] at hj2lt
        simpa using hj2lt
      rw [py_idx_of_range (by simp only [get_index_from_char]; omega)
        (by simp only [get_index_from_char, List.length_replicate, ASCII_NUM]; push_cast; omega),
        Option.some_inj] at hj1idx
      rw [py_idx_of_range (by simp only [get_index_from_char]; omega)
        (by
          rw [hch1eq]
          simp only [get_index_from_char, List.length_set, List.length_replicate, ASCII_NUM]
          push_cast
          omega),
        Option.some_inj] at hj2idx
      have htoNat : cCheck.toNat ≠ cPhase.toNat := fun hcon => heq (char_toNat_inj hcon)
      have hjne : j2 ≠ j1 := by
        rw [← hj1idx, ← hj2idx]
        simp only [get_index_from_char]
        omega
      have hcount : 2 ≤ num_children
          { children := ch2, leafNum := NAN, slink := some 0 : UNode } := by
        show 2 ≤ ch2.countP Option.isSome
        rw [hch2eq, hch1eq]
        exact countP_double_set _ _ _ _ _ _ rfl rfl (fun hc => hjne hc.symm) hj1lt
          (by simpa using hj2lt')
      have hlen2 : ch2.length = ASCII_NUM := by
        rw [hch2eq, hch1eq]
        simp [ASCII_NUM]
      have hGapp : GoodTree (st.nodes ++
          [{ children := ch2, leafNum := NAN, slink := some 0 : UNode },
           { children := List.replicate ASCII_NUM none, leafNum := j,
             slink := none : UNode }]) := by
        apply good_tree_append hG
        intro nd hnd hleaf
        simp only [List.mem_cons, List.mem_singleton] at hnd
        rcases hnd with hnd | hnd | hcon
        · subst hnd
          exact hcount
        · subst hnd
          simp only [NAN] at hleaf
          omega
        · exact absurd hcon (List.not_mem_nil nd)
      have hCapp : ChildrenLen (st.nodes ++
          [{ children := ch2, leafNum := NAN, slink := some 0 : UNode },
           { children := List.replicate ASCII_NUM none, leafNum := j,
             slink := none : UNode }]) := by
        apply children_len_append hC
        intro nd hnd
        simp only [List.mem_cons, List.mem_singleton] at hnd
        rcases hnd with hnd | hnd | hcon
        · subst hnd
          exact hlen2
        · subst hnd
          simp [ASCII_NUM]
        · exact absurd hcon (List.not_mem_nil nd)
      obtain ⟨hG2, hC2, hs2, hl2, hp2⟩ := set_child_slot_pres hst2 hGapp hCapp
      have hstr2 : st2.str = st.str := hs2
      have hlastJ2 : st2.lastJ = st.lastJ := hl2
      split at h
      · simp only [Option.some_inj, Prod.mk.injEq] at h
        obtain ⟨hst', _⟩ := h
        subst hst'
        refine ⟨⟨hG2, hC2, ?_, ?_⟩, hstr2⟩
        · show -1 ≤ st2.lastJ + 1
          omega
        · show ValidChars st2.str
          rw [hstr2]
          exact hV
      · rename_i p hp
        simp only [bind_eq_obind, Option.bind_eq_some] at h
        obtain ⟨pnd, hpnd0, h⟩ := h
        have hpnd : st2.nodes.get? p = some pnd := hpnd0
        simp only [Option.some_inj, Prod.mk.injEq] at h
        obtain ⟨hst', _⟩ := h
        subst hst'
        refine ⟨⟨?_, ?_, ?_, ?_⟩, hstr2⟩
        · exact good_tree_set hpnd hG2 rfl le_rfl
        · exact children_len_set (hC2 p pnd hpnd) hC2
        · show -1 ≤ st2.lastJ + 1
          omega
        · show ValidChars st2.str
          rw [hstr2]
          exact hV

theorem skip_loop_frame (fuel : Nat) : ∀ (st : STState) (phase remLen : Int)
    (st1 : STState) (nei : Int) (e? : Option UEdge),
    skip_loop fuel st phase remLen = some (st1, nei, e?) →
    st1.nodes = st.nodes ∧ st1.lastJ = st.lastJ ∧ st1.str = st.str := by
  induction fuel with
  | zero =>
    intro st phase remLen st1 nei e? h
    exact Option.noConfusion h
  | succ fuel ih =>
    intro st phase remLen st1 nei e? h
    simp only [skip_loop, bind_eq_obind, Option.bind_eq_some] at h
    obtain ⟨a, ha, nd, hnd, ch, hch, slot, hslot, h⟩ := h
    split at h
    · simp only [Option.some_inj, Prod.mk.injEq] at h
      obtain ⟨h1, _, _⟩ := h
      subst h1
      exact ⟨rfl, rfl, rfl⟩
    · rename_i e
      simp only [bind_eq_obind, Option.bind_eq_some] at h
      obtain ⟨elen, helen, h⟩ := h
      split at h
      · simp only [Option.some_inj, Prod.mk.injEq] at h
        obtain ⟨h1, _, _⟩ := h
        subst h1
        exact ⟨rfl, rfl, rfl⟩
      · rename_i len
        split at h
        · have hrec := ih _ _ _ _ _ _ h
          exact hrec
        · simp only [Option.some_inj, Prod.mk.injEq] at h
          obtain ⟨h1, _, _⟩ := h
          subst h1
          exact ⟨rfl, rfl, rfl⟩

theorem skip_count_frame {fuel : Nat} {st : STState} {phase : Int} {st1 : STState}
    {nei : Int} {e? : Option UEdge}
    (h : skip_count fuel st phase = some (st1, nei, e?)) :
    st1.nodes = st.nodes ∧ st1.lastJ = st.lastJ ∧ st1.str = st.str := by
  simp only [skip_count] at h
  split at h
  · exact skip_loop_frame fuel st phase _ st1 nei e? h
  · simp only [bind_eq_obind, Option.bind_eq_some] at h
    obtain ⟨a, ha, nd, hnd, ch, hch, slot, hslot, h⟩ := h
    simp only [Option.some_inj, Prod.mk.injEq] at h
    obtain ⟨h1, _, _⟩ := h
    subst h1
    exact ⟨rfl, rfl, rfl⟩

theorem suffix_link_jump_frame {st st' : STState} (h : suffix_link_jump st = some st') :
    st'.nodes = st.nodes ∧ st'.lastJ = st.lastJ ∧ st'.str = st.str := by
  simp only [suffix_link_jump] at h
  split at h
  · simp only [Option.some_inj] at h
    subst h
    exact ⟨rfl, rfl, rfl⟩
  · split at h
    · simp only [bind_eq_obind, Option.bind_eq_some] at h
      obtain ⟨a, ha, nd, hnd, h⟩ := h
      simp only [Option.some_inj] at h
      subst h
      exact ⟨rfl, rfl, rfl⟩
    · simp only [Option.some_inj] at h
      subst h
      exact ⟨rfl, rfl, rfl⟩

theorem stinv_of_frame {st st' : STState}
    (hf : st'.nodes = st.nodes ∧ st'.lastJ = st.lastJ ∧ st'.str = st.str)
    (hI : STInv st) : STInv st' := by
  obtain ⟨h1, h2, h3⟩ := hf
  obtain ⟨hG, hC, hL, hV⟩ := hI
  exact ⟨by rw [h1]; exact hG, by rw [h1]; exact hC, by rw [h2]; exact hL,
    by rw [h3]; exact hV⟩

theorem ext_loop_inv (js : List Int) : ∀ (fuel : Nat) (phase : Int) (st st' : STState),
    STInv st → (∀ j2 ∈ js, 0 ≤ j2) → ext_loop fuel phase js st = some st' →
    STInv st' := by
  induction js with
  | nil =>
    intro fuel phase st st' hI _ h
    simp only [ext_loop, Option.some_inj] at h
    subst h
    exact hI
  | cons j rest ih =>
    intro fuel phase st st' hI hjs h
    simp only [ext_loop, bind_eq_obind, Option.bind_eq_some] at h
    obtain ⟨⟨st1, nei, e?⟩, hsc, h⟩ := h
    simp only [bind_eq_obind, Option.bind_eq_some] at h
    obtain ⟨⟨st2, brk⟩, hse, h⟩ := h
    have hI1 : STInv st1 := stinv_of_frame (skip_count_frame hsc) hI
    have hj0 : 0 ≤ j := hjs j (List.mem_cons_self j rest)
    obtain ⟨hI2, hstr2⟩ := suffix_extension_inv hse hI1 hj0
    split at h
    · simp only [Option.some_inj] at h
      subst h
      exact hI2
    · simp only [bind_eq_obind, Option.bind_eq_some] at h
      obtain ⟨st3, hsl, h⟩ := h
      have hI3 : STInv st3 := stinv_of_frame (suffix_link_jump_frame hsl) hI2
      exact ih fuel phase st3 st' hI3 (fun j2 hj2 => hjs j2 (List.mem_cons_of_mem j hj2)) h

theorem add_char_inv {fuel : Nat} {st : STState} {phase : Int} {st' : STState}
    (h : add_char fuel st phase = some st') (hI : STInv st) : STInv st' := by
  have hjs : ∀ j2 ∈ int_range (st.lastJ + 1) (phase + 1), 0 ≤ j2 := by
    intro j2 hj2
    have h1 := int_range_mem hj2
    have h2 := hI.2.2.1
    omega
  rw [add_char] at h
  have hI2 : STInv { st with prevAdded := none } := hI
  exact ext_loop_inv _ fuel phase _ st' hI2 hjs h

theorem stinv_init {s : List Char} (hs : ValidChars s) : STInv (init_state s) := by
  refine ⟨?_, ?_, by norm_num [init_state], hs⟩
  · intro i nd hi hpos _
    cases i with
    | zero => omega
    | succ i2 => exact Option.noConfusion hi
  · intro i nd hi
    cases i with
    | zero =>
      simp only [init_state, List.get?_cons_zero, Option.some_inj] at hi
      subst hi
      simp [ASCII_NUM]
    | succ i2 => exact Option.noConfusion hi

theorem build_phases_inv (s : List Char) (hs : ValidChars s) (fuel : Nat) :
    ∀ (k : Nat) (st' : STState), build_phases s k fuel = some st' → STInv st' := by
  intro k
  induction k with
  | zero =>
    intro st' h
    simp only [build_phases, List.range_zero, List.foldlM_nil, pure, Option.some_inj] at h
    subst h
    exact stinv_init hs
  | succ k ih =>
    intro st' h
    rw [build_phases, List.range_succ, List.foldlM_append] at h
    simp only [List.foldlM_cons, List.foldlM_nil, bind_eq_obind, Option.bind_eq_some] at h
    obtain ⟨st1, h1, h2⟩ := h
    have hI1 : STInv st1 := ih st1 h1
    simp only [pure, Option.some_inj, Option.bind_eq_some] at h2
    obtain ⟨st2, h2a, h2b⟩ := h2
    cases h2b
    exact add_char_inv h2a hI1

def good_tree_opt (o : Option STState) : Prop :=
  ∀ st, o = some st → GoodTree st.nodes

/-- C9.  On a valid input string, at the end of every phase of the Ukkonen
construction every internal node (non-root, `leaf_num = NAN`) of the tree
has at least two children.  The proof threads the invariant through every
extension step: rule 2 case 1, the rule 2 case 2 split, and rule 3 each
preserve it (`suffix_extension_inv`), and the skip-count and suffix-link
jumps do not touch any child table. -/
theorem ukkonen_internal_nodes_two_children (s : List Char) (k fuel : Nat)
    (h : valid_input s = true) : good_tree_opt (build_phases s k fuel) := by
  intro st hst
  exact (build_phases_inv s (valid_input_chars h) fuel k st hst).1

/-- Closed-form instance of `ukkonen_internal_nodes_two_children` on the
fully built tree for `"ab$"`. -/
theorem ukkonen_internal_nodes_two_children_witness :
    valid_input "ab$".toList = true ∧
      (build_phases "ab$".toList 3 100).isSome = true ∧
      good_tree_opt (build_phases "ab$".toList 3 100) :=
  ⟨by decide, by decide,
    ukkonen_internal_nodes_two_children "ab$".toList 3 100 (by decide)⟩

/-! ## Run-length encoder (`RunlengthEncoder` in `runlength_binary_bwt.py`) -/

/-- `EliasCode.encode` including the memo vector `encoded_num` of
`EliasCode(length)`: the cache index `num - 1` uses Python list semantics
(so `num = 0` reads and writes the *last* slot), and a cached entry is used
only when truthy (a non-empty bitarray). -/
def elias_encode_memo (num : Nat) (memo : List (Option (List Bool))) :
    Option (List Bool × List (Option (List Bool))) := do
  let cached ← py_get memo ((num : Int) - 1)
  match cached with
  | some bits =>
    if bits ≠ [] then some (bits, memo)
    else do
      let fresh := elias_encode num
      let memo2 ← py_set memo ((num : Int) - 1) (some fresh)
      some (fresh, memo2)
  | none => do
    let fresh := elias_encode num
    let memo2 ← py_set memo ((num : Int) - 1) (some fresh)
    some (fresh, memo2)

/-- `RunlengthEncoder.get_bwt`: suffix array from the Ukkonen tree, then
`BWT[k] = string[(SA[k] - 1) % n]` (Python `%`, i.e. `Int.emod`). -/
def get_bwt (s : List Char) (fuel : Nat) : Option (List Char) := do
  let st ← build_suffix_tree s fuel
  let sa ← dfs_node fuel st 0 []
  sa.mapM (fun suffix => py_get s ((suffix - 1) % (s.length : Int)))

/-- `RunlengthEncoder.get_freq_arr`: frequencies over the BWT string plus
the unique characters in order of first appearance. -/
def get_freq_arr (bwt : List Char) : Option (List Char × List Nat) :=
  bwt.foldlM
    (fun (acc : List Char × List Nat) ch => do
      let f0 ← py_get acc.2 (get_index_from_char ch)
      let uc2 := if f0 = 0 then acc.1 ++ [ch] else acc.1
      let freq2 ← py_set acc.2 (get_index_from_char ch) (f0 + 1)
      some (uc2, freq2))
    ([], List.replicate ASCII_NUM 0)

/-- `RunlengthEncoder.encode_runlength`: Huffman code of the character
followed by the Elias code of the run length.  A missing Huffman entry is
Python `None`, and `None + bitarray` raises (`none`). -/
def encode_runlength (table : List (Option (List Bool))) (ch : Char) (cnt : Nat)
    (memo : List (Option (List Bool))) :
    Option (List Bool × List (Option (List Bool))) := do
  let enc? ← py_get table (get_index_from_char ch)
  let enc ← enc?
  let (cntBits, memo2) ← elias_encode_memo cnt memo
  some (enc ++ cntBits, memo2)

/-- The run-length scan of `RunlengthEncoder.encode` over `bwt_string[1:]`,
carrying the current run character, its count, the output bits and the
Elias memo. -/
def rle_scan (table : List (Option (List Bool))) :
    List Char → Char → Nat → List Bool → List (Option (List Bool)) →
    Option (List Bool × Char × Nat × List (Option (List Bool)))
  | [], cur, cnt, acc, memo => some (acc, cur, cnt, memo)
  | ch :: rest, cur, cnt, acc, memo =>
    if ch = cur then rle_scan table rest cur (cnt + 1) acc memo
    else do
      let (bits, memo2) ← encode_runlength table cur cnt memo
      rle_scan table rest ch 1 (acc ++ bits) memo2

/-- `RunlengthEncoder(string).encode()`: the header (Elias length, Elias
unique-character count, then per character its 7-bit ASCII code, the Elias
code of its Huffman length and the Huffman code itself), the run-length
body, and zero padding to a byte boundary. -/
def rl_encode (s : List Char) (fuel : Nat) : Option (List Bool) := do
  let length := s.length
  let bwt ← get_bwt s fuel
  let (uniq, freq) ← get_freq_arr bwt
  let table ← huffman_table freq
  let memo0 : List (Option (List Bool)) := List.replicate length none
  let (encLen, m1) ← elias_encode_memo length memo0
  let (encU, m2) ← elias_encode_memo uniq.length m1
  let (hdr, m3) ← uniq.foldlM
    (fun (acc : List Bool × List (Option (List Bool))) ch => do
      let ab := decimal_to_binary ch.toNat
      let ab7 := List.replicate (7 - ab.length) false ++ ab
      let enc? ← py_get table (get_index_from_char ch)
      let enc ← enc?
      let (clBits, m) ← elias_encode_memo enc.length acc.2
      some (acc.1 ++ ab7 ++ clBits ++ enc, m))
    (encLen ++ encU, m2)
  let c0 ← py_get bwt 0
  let (body, lastCh, lastCnt, m4) ← rle_scan table (bwt.drop 1) c0 1 hdr m3
  let (lastBits, _) ← encode_runlength table lastCh lastCnt m4
  let full := body ++ lastBits
  some (full ++ List.replicate ((8 - full.length % 8) % 8) false)

set_option maxRecDepth 100000 in
/-- C6.  The character `'!'` (code 33) lies below the alphabet minimum 36,
so its index is `-3`; the source performs no range check, and Python's
negative indexing silently wraps the frequency/child-table accesses.  On
the input `"~!$"` of the spec's scenario 4 the encoder returns a bitstream
instead of signalling `OutOfAlphabet`. -/
theorem encoder_accepts_out_of_alphabet :
    get_index_from_char '!' = -3 ∧ (rl_encode "~!$".toList 100).isSome = true := by
  refine ⟨by decide, ?_⟩
  decide

/-! ## Run-length decoder (`RunlengthDecoder` in `runlength_binary_bwt.py`)

Decoder functions return a three-valued result: `ok` for a normal return,
`exn` for a Python exception, and `spin` for fuel exhaustion — so that
`(∀ fuel, ... = spin)` expresses genuine non-termination of a `while`
loop. -/

inductive DRes (α : Type) where
  | ok (a : α)
  | exn
  | spin
deriving Repr, DecidableEq

/-- The decoder's `decoding_table` dict: insertion-ordered, one binding per
key (`add_to_decoder_table` overwrites). -/
def table_get (t : List (List Bool × Char)) (k : List Bool) : Option Char :=
  (t.find? (fun p => p.1 == k)).map (fun p => p.2)

def table_put (t : List (List Bool × Char)) (k : List Bool) (c : Char) :
    List (List Bool × Char) :=
  if (t.find? (fun p => p.1 == k)).isSome then
    t.map (fun p => if p.1 == k then (k, c) else p)
  else t ++ [(k, c)]

def table_values (t : List (List Bool × Char)) : List Char :=
  t.map (fun p => p.2)

/-- The header loop of `RunlengthDecoder.decode`: for each of the `u`
unique characters read 7 ASCII bits (`int("" ,2)` raises on an empty
slice), an Elias-coded code length, and that many code bits. -/
def read_header : Nat → List Bool → List (List Bool × Char) →
    Option (List Bool × List (List Bool × Char))
  | 0, bits, t => some (bits, t)
  | u + 1, bits, t =>
    let ab := bits.take 7
    if ab.isEmpty then none
    else
      let ch := Char.ofNat (bits_val ab)
      match elias_decode (bits.drop 7) with
      | none => none
      | some (bits2, hlen) =>
        read_header u (bits2.drop hlen) (table_put t (bits2.take hlen) ch)

/-- The `while length > 0` run-length parsing loop of
`RunlengthDecoder.decode`: grow the candidate prefix until it is a key of
the decoding table, then read an Elias run length and append the repeated
character. -/
def rle_loop : Nat → List Bool → Int → Nat → List (List Bool × Char) → List Char →
    DRes (List Char × List Bool)
  | 0, _, _, _, _, _ => .spin
  | fuel + 1, bits, length, k, t, acc =>
    if length > 0 then
      match table_get t (bits.take (k + 1)) with
      | some ch =>
        match elias_decode (bits.drop (k + 1)) with
        | none => .exn
        | some (bits2, run) =>
          rle_loop fuel bits2 (length - (run : Int)) 0 t (acc ++ List.replicate run ch)
      | none => rle_loop fuel bits length (k + 1) t acc
    else .ok (acc, bits)

/-- `RunlengthDecoder.get_bwt_rank`. -/
def get_bwt_rank (bwt : List Char) : Option (List (Option Int)) := do
  let char_count ← bwt.foldlM
    (fun (cc : List Nat) ch => do
      let c0 ← py_get cc (get_index_from_char ch)
      py_set cc (get_index_from_char ch) (c0 + 1))
    (List.replicate ASCII_NUM 0)
  let res := (List.range ASCII_NUM).foldl
    (fun (acc : List (Option Int) × Nat × Int) (index : Nat) =>
      match char_count.get? index with
      | some cnt =>
        if cnt ≠ 0 then
          (acc.1.set index (some ((acc.2.1 : Int) + acc.2.2)), cnt,
            (acc.2.1 : Int) + acc.2.2)
        else acc
      | none => acc)
    (List.replicate ASCII_NUM none, 0, 0)
  some res.1

/-- `RunlengthDecoder.get_bwt_occurrences`: per character of the decoding
table a cumulative occurrence list over the BWT string (a slot is only
updated when its list is truthy, i.e. present and non-empty). -/
def get_bwt_occurrences (uniq : List Char) (bwt : List Char) :
    Option (List (Option (List Nat))) := do
  let occ0 ← uniq.foldlM
    (fun (occ : List (Option (List Nat))) ch =>
      py_set occ (get_index_from_char ch) (some (List.replicate bwt.length 0)))
    (List.replicate ASCII_NUM none)
  bwt.enum.foldlM
    (fun (occ : List (Option (List Nat))) p =>
      occ.enum.foldlM
        (fun (occ2 : List (Option (List Nat))) q =>
          match q.2 with
          | none => some occ2
          | some l =>
            if l ≠ [] then do
              let pv ← py_get l (max 0 ((p.1 : Int) - 1))
              let add := if get_char_from_index q.1 = p.2 then 1 else 0
              let l2 ← py_set l (p.1 : Int) (pv + add)
              py_set occ2 (q.1 : Int) (some l2)
            else some occ2)
        occ)
    occ0

/-- The `while current_char != '$'` LF-mapping loop of
`RunlengthDecoder.get_string_from_bwt`.  A `None` rank or occurrence slot
surfaces as a `TypeError` (`exn`). -/
def lf_loop : Nat → List Char → List (Option Int) → List (Option (List Nat)) →
    Char → Int → List Char → DRes (List Char)
  | 0, _, _, _, _, _, _ => .spin
  | fuel + 1, bwt, rank, occ, cur, pos, acc =>
    if cur ≠ '$' then
      match py_get rank (get_index_from_char cur) with
      | none => .exn
      | some none => .exn
      | some (some rv) =>
        match py_get occ (get_index_from_char cur) with
        | none => .exn
        | some none => .exn
        | some (some ol) =>
          match py_get ol pos with
          | none => .exn
          | some ov =>
            match py_get bwt (rv + (ov : Int) - 1) with
            | none => .exn
            | some cur2 =>
              lf_loop fuel bwt rank occ cur2 (rv + (ov : Int) - 1) (cur :: acc)
    else .ok acc

/-- `RunlengthDecoder.get_string_from_bwt`, with the unique characters of
the decoding table passed explicitly (they drive the occurrence table). -/
def get_string_from_bwt (uniq : List Char) (bwt : List Char) (fuel : Nat) :
    DRes (List Char) :=
  match get_bwt_rank bwt with
  | none => .exn
  | some rank =>
    match get_bwt_occurrences uniq bwt with
    | none => .exn
    | some occ =>
      match py_get bwt 0 with
      | none => .exn
      | some c0 => lf_loop fuel bwt rank occ c0 0 ['$']

/-- `RunlengthDecoder(binary).decode()`. -/
def decode_stream (fuel : Nat) (binary : List Bool) : DRes (List Char) :=
  match elias_decode binary with
  | none => .exn
  | some (b1, length) =>
    match elias_decode b1 with
    | none => .exn
    | some (b2, u) =>
      match read_header u b2 [] with
      | none => .exn
      | some (b3, t) =>
        match rle_loop fuel b3 (length : Int) 0 t [] with
        | .spin => .spin
        | .exn => .exn
        | .ok (bwt, _) => get_string_from_bwt (table_values t) bwt fuel

/-- A malformed stream: header `n = 1`, `u = 1`, character `'a'` with the
1-bit Huffman code `0`, followed by the body bit `1`, which is not a prefix
of any table entry. -/
def c8_bits : List Bool :=
  [true, true, true, true, false, false, false, false, true, true, false, true]

theorem rle_loop_c8_spins : ∀ (fuel k : Nat),
    rle_loop fuel [true] 1 k [([false], 'a')] [] = DRes.spin := by
  intro fuel
  induction fuel with
  | zero => intro k; rfl
  | succ fuel ih => intro k; exact ih (k + 1)

/-- C8.  The run-length parsing loop of `RunlengthDecoder.decode` does not
terminate on every input: on the malformed stream `c8_bits` the remaining
body bit `1` never matches the single table code `0`, the candidate prefix
keeps growing without consuming anything, and the loop runs forever
(no result and no exception, for every fuel bound). -/
theorem decoder_rle_loop_diverges (fuel : Nat) :
    decode_stream fuel c8_bits = DRes.spin := by
  have h := rle_loop_c8_spins fuel 0
  rw [show decode_stream fuel c8_bits =
      (match rle_loop fuel [true] 1 0 [([false], 'a')] [] with
       | .spin => DRes.spin
       | .exn => DRes.exn
       | .ok (bwt, _) =>
         get_string_from_bwt (table_values [([false], 'a')]) bwt fuel) from rfl]
  rw [h]

/-! ## Concrete end-to-end validation of the embedding

Instance-level checks that the embedded pipeline reproduces the behaviour
documented for the source: the classic suffix array of `"banana$"` and a
full encode/decode round trip. -/

set_option maxRecDepth 100000 in
theorem suffix_array_banana :
    get_suffix_array "banana$".toList 1000 = some [6, 5, 3, 1, 0, 4, 2] := by
  decide

set_option maxRecDepth 100000 in
theorem codec_roundtrip_banana :
    (rl_encode "banana$".toList 1000).map (fun bits => decode_stream 1000 bits) =
      some (DRes.ok "banana$".toList) := by
  decide
